import Mathlib

/-!
Verification of the `simple-database` LSM storage engine
(crate `db-engine`), against its natural-language specification.

The Rust source is shallowly embedded: byte streams are `List Nat`
(each byte `< 256` where well-formedness matters), `u64`/`u128`/`usize`
values are `Nat` with explicit `% 2^w` at the serialization boundary,
fallible operations return `Option`, and every stateful component
(`MemTable`, `SSTableWriter`, the database façade, the compactor) is
modelled by explicit state passing.
-/

namespace SimpleDb

/-! ## Little-endian fixed-width integers

`usize`/`u64` values are framed as 8 little-endian bytes and `u128`
timestamps as 16, mirroring `to_le_bytes` / `from_le_bytes` in
`entries.rs`. -/

/-- `n.to_le_bytes()` for a `w`-byte integer: little-endian byte list. -/
def toLEBytes : Nat → Nat → List Nat
  | _, 0 => []
  | n, w + 1 => (n % 256) :: toLEBytes (n / 256) w

/-- `from_le_bytes` over a byte list. -/
def fromLEBytes : List Nat → Nat
  | [] => 0
  | b :: bs => b % 256 + 256 * fromLEBytes bs

/-! ## Entry codec (`entries.rs`)

```
key_len : u64 LE, key bytes, tomb : u8, [value_len : u64 LE, value bytes],
timestamp : u128 LE
```
-/

/-- `Entry { key, value, timestamp }`; `value = none` is a tombstone. -/
structure Entry where
  key : List Nat
  value : Option (List Nat)
  timestamp : Nat
deriving DecidableEq, Repr

/-- `Entry::is_deleted`. -/
def Entry.is_deleted (e : Entry) : Bool := e.value.isNone

/-- Well-formed entry: lengths fit in `usize` (`u64`) and the timestamp
in `u128`, as is forced by the Rust types. -/
def Entry.WF (e : Entry) : Prop :=
  e.key.length < 256 ^ 8 ∧
    (∀ v, e.value = some v → v.length < 256 ^ 8) ∧ e.timestamp < 256 ^ 16

instance (e : Entry) : Decidable e.WF := by
  unfold Entry.WF
  infer_instance

/-- `Entry::write_to`: the exact byte stream produced for one entry. -/
def Entry.write_to (e : Entry) : List Nat :=
  toLEBytes e.key.length 8 ++ e.key ++
    [if e.is_deleted then 1 else 0] ++
    (match e.value with
      | some v => toLEBytes v.length 8 ++ v
      | none => []) ++
    toLEBytes e.timestamp 16

/-- `read_exact` into an `n`-byte buffer: the first `n` bytes and the
rest of the stream, or `none` if the stream is too short. -/
def readExact (n : Nat) (bs : List Nat) : Option (List Nat × List Nat) :=
  if n ≤ bs.length then some (bs.take n, bs.drop n) else none

/-- `Entry::read_from`: decode one entry from the front of a byte
stream, returning the entry and the remaining stream, or `none` if any
read fails mid-record. -/
def Entry.read_from (bs : List Nat) : Option (Entry × List Nat) :=
  match readExact 8 bs with
  | none => none
  | some (keyLenBytes, bs) =>
    match readExact (fromLEBytes keyLenBytes) bs with
    | none => none
    | some (key, bs) =>
      match readExact 1 bs with
      | none => none
      | some (tombBytes, bs) =>
        if tombBytes.headI ≠ 0 then
          match readExact 16 bs with
          | none => none
          | some (tsBytes, bs) => some (⟨key, none, fromLEBytes tsBytes⟩, bs)
        else
          match readExact 8 bs with
          | none => none
          | some (valLenBytes, bs) =>
            match readExact (fromLEBytes valLenBytes) bs with
            | none => none
            | some (value, bs) =>
              match readExact 16 bs with
              | none => none
              | some (tsBytes, bs) =>
                some (⟨key, some value, fromLEBytes tsBytes⟩, bs)

/-! ## MemTable (`mem_table.rs`)

The MemTable holds a key-sorted `Vec<Entry>` plus a running `size`.
`get_index` is Rust's `binary_search_by_key` on the sorted vector; on a
sorted, duplicate-free vector it returns `Ok(idx)` of the unique match
or `Err(idx)` of the insertion point, which is embedded here as a find
over the list plus a sorted insertion. -/

/-- Lexicographic `<` on byte strings (Rust `[u8]` slice ordering). -/
def bytesLt : List Nat → List Nat → Bool
  | _, [] => false
  | [], _ :: _ => true
  | a :: as, b :: bs => if a < b then true else if b < a then false else bytesLt as bs

/-- The stored entry for `key`, if any (the match found by
`get_index`). -/
def findEntry (entries : List Entry) (key : List Nat) : Option Entry :=
  entries.find? (fun e => e.key == key)

/-- Replace the entry for `key` (`self.entries[idx] = entry`). -/
def replaceEntry : List Entry → List Nat → Entry → List Entry
  | [], _, _ => []
  | x :: xs, key, e =>
    if x.key == key then e :: xs else x :: replaceEntry xs key e

/-- Insert at the sorted position (`self.entries.insert(idx, entry)`
with `idx` the `Err` insertion point of the binary search). -/
def insertSorted (e : Entry) : List Entry → List Entry
  | [] => [e]
  | x :: xs => if bytesLt x.key e.key then x :: insertSorted e xs else e :: x :: xs

/-- `TIMESTAMP_SIZE`. -/
def TIMESTAMP_SIZE : Nat := 16

/-- `TOMBSTONE_SIZE`. -/
def TOMBSTONE_SIZE : Nat := 1

/-- `MemTable { entries, size }`. -/
structure MemTable where
  entries : List Entry
  size : Nat
deriving DecidableEq, Repr

/-- `MemTable::new`. -/
def MemTable.new : MemTable := ⟨[], 0⟩

/-- `MemTable::get`. -/
def MemTable.get (m : MemTable) (key : List Nat) : Option Entry :=
  findEntry m.entries key

/-- Length of the stored value, `0` for a tombstone (the amount
`set`/`delete` subtract for an existing entry). -/
def valLen : Option (List Nat) → Nat
  | some v => v.length
  | none => 0

/-- `MemTable::set`. -/
def MemTable.set (m : MemTable) (key value : List Nat) (timestamp : Nat) :
    MemTable :=
  let entry : Entry := ⟨key, some value, timestamp⟩
  match findEntry m.entries key with
  | some old =>
    ⟨replaceEntry m.entries key entry,
      m.size - valLen old.value + value.length⟩
  | none =>
    ⟨insertSorted entry m.entries,
      m.size + key.length + value.length + TIMESTAMP_SIZE + TOMBSTONE_SIZE⟩

/-- `MemTable::delete`. -/
def MemTable.delete (m : MemTable) (key : List Nat) (timestamp : Nat) :
    MemTable :=
  let entry : Entry := ⟨key, none, timestamp⟩
  match findEntry m.entries key with
  | some old =>
    ⟨replaceEntry m.entries key entry, m.size - valLen old.value⟩
  | none =>
    ⟨insertSorted entry m.entries,
      m.size + key.length + TIMESTAMP_SIZE + TOMBSTONE_SIZE⟩

/-- MemTables reachable from `MemTable::new` by `set`/`delete` calls. -/
inductive MemTable.Reachable : MemTable → Prop
  | new : MemTable.Reachable MemTable.new
  | set (m : MemTable) (key value : List Nat) (ts : Nat) :
      MemTable.Reachable m → MemTable.Reachable (m.set key value ts)
  | delete (m : MemTable) (key : List Nat) (ts : Nat) :
      MemTable.Reachable m → MemTable.Reachable (m.delete key ts)

/-- The size contribution of one entry per the spec's accounting:
`len(key) + len(value_if_present) + 16 + 1`. -/
def entrySize (e : Entry) : Nat :=
  e.key.length + valLen e.value + TIMESTAMP_SIZE + TOMBSTONE_SIZE

/-- Total accounted size of a list of entries. -/
def sumSizes : List Entry → Nat
  | [] => 0
  | e :: es => entrySize e + sumSizes es

/-! ## WAL replay (`wal.rs`)

`WriteAheadLog::set`/`delete` encode an `Entry` and append it to the
segment; `restore_from_dir` decodes each entry of each segment in order
and applies it to a fresh MemTable (`delete` when `is_deleted`, `set`
otherwise). -/

/-- One replay step of `restore_from_dir`'s loop body on the new
MemTable. -/
def applyEntry (e : Entry) (m : MemTable) : MemTable :=
  match e.value with
  | none => m.delete e.key e.timestamp
  | some v => m.set e.key v e.timestamp

/-- Replay a decoded entry sequence left-to-right. -/
def applyEntries (es : List Entry) (m : MemTable) : MemTable :=
  es.foldl (fun m e => applyEntry e m) m

/-- The byte content of a WAL segment holding `ops` in write order. -/
def encodeEntries : List Entry → List Nat
  | [] => []
  | e :: es => e.write_to ++ encodeEntries es

/-- The `WALIterator` loop: decode entries until `read_from` returns
`none`. `fuel` bounds the iteration count; any fuel at least the number
of encoded records computes the loop's result. -/
def decodeEntries : Nat → List Nat → List Entry
  | 0, _ => []
  | fuel + 1, bs =>
    match Entry.read_from bs with
    | none => []
    | some (e, rest) => e :: decodeEntries fuel rest

/-- The MemTable produced by `restore_from_dir` over a directory whose
single flushed WAL segment holds `bytes` (each record is at least one
byte, so `bytes.length` fuel suffices). -/
def walRestoreMemTable (bytes : List Nat) : MemTable :=
  applyEntries (decodeEntries bytes.length bytes) MemTable.new

/-! ## SSTable index (`sstable/sstable_index.rs`)

The in-memory `BTreeMap<Vec<u8>, u64>` is embedded as a key-sorted
association list.  `bincode` 1.x with its default options (little
endian, fixed-width integers) serializes the map as a `u64` entry count
followed by, per entry, a `u64`-length-prefixed key and the `u64`
offset; `bincode::deserialize` reads exactly that prefix, ignores any
trailing bytes, and rebuilds the `BTreeMap` by inserting the decoded
pairs. -/

/-- The `BTreeMap<Vec<u8>, u64>` behind `SSTableIndex`, as a key-sorted
association list. -/
abbrev IdxMap := List (List Nat × Nat)

/-- `BTreeMap::insert` (overwrites an existing key, keeps order). -/
def idxInsert : IdxMap → List Nat → Nat → IdxMap
  | [], k, off => [(k, off)]
  | (k', o') :: t, k, off =>
    if k' == k then (k, off) :: t
    else if bytesLt k' k then (k', o') :: idxInsert t k off
    else (k, off) :: (k', o') :: t

/-- `BTreeMap::get`. -/
def idxLookup : IdxMap → List Nat → Option Nat
  | [], _ => none
  | (k', o') :: t, k => if k' == k then some o' else idxLookup t k

/-- `SSTableIndex::contains_key`. -/
def idxContains (m : IdxMap) (k : List Nat) : Bool :=
  (idxLookup m k).isSome

/-- `BTreeMap::remove`.  Modelled from the spec: `SSTableIndex::remove`
is called by `Compaction::remove_deleted_keys` ("remove each deleted
key from its map") but its definition is not among the sources at hand;
this is the standard ordered-map removal the spec describes. -/
def idxRemove : IdxMap → List Nat → IdxMap
  | [], _ => []
  | (k', o') :: t, k => if k' == k then t else (k', o') :: idxRemove t k

/-- `Compaction::remove_deleted_keys` inner loop: for each key, remove
it from the map if present. -/
def removeKeys : IdxMap → List (List Nat) → IdxMap
  | m, [] => m
  | m, k :: ks => removeKeys (if idxContains m k then idxRemove m k else m) ks

/-- bincode body: each entry as `u64` key length, key bytes, `u64`
offset. -/
def encodePairs : IdxMap → List Nat
  | [] => []
  | (k, off) :: t => toLEBytes k.length 8 ++ k ++ toLEBytes off 8 ++ encodePairs t

/-- `bincode::serialize` of the map: `u64` count then the entries. -/
def encodeMap (m : IdxMap) : List Nat :=
  toLEBytes m.length 8 ++ encodePairs m

/-- Decode `count` serialized map entries, returning them with the rest
of the stream. -/
def decodePairs : Nat → List Nat → Option (IdxMap × List Nat)
  | 0, bs => some ([], bs)
  | c + 1, bs =>
    match readExact 8 bs with
    | none => none
    | some (klenB, bs) =>
      match readExact (fromLEBytes klenB) bs with
      | none => none
      | some (k, bs) =>
        match readExact 8 bs with
        | none => none
        | some (offB, bs) =>
          match decodePairs c bs with
          | none => none
          | some (t, bs) => some ((k, fromLEBytes offB) :: t, bs)

/-- `bincode::deserialize::<BTreeMap<Vec<u8>, u64>>`: read the count and
that many entries (ignoring trailing bytes) and insert them into a
fresh map. -/
def decodeMap (bs : List Nat) : Option IdxMap :=
  match readExact 8 bs with
  | none => none
  | some (cntB, bs) =>
    match decodePairs (fromLEBytes cntB) bs with
    | none => none
    | some (pairs, _) =>
      some (pairs.foldl (fun m p => idxInsert m p.1 p.2) [])

/-- `SSTableIndexBuilder::indexes`: an empty file yields an empty map;
otherwise the content must deserialize. -/
def decodeIdxFile (bs : List Nat) : Option IdxMap :=
  if bs.isEmpty then some [] else decodeMap bs

/-- `write_all` at stream position `pos` of a file opened without
truncation: bytes before `pos` and past the written range survive. -/
def writeAt (file : List Nat) (pos : Nat) (bytes : List Nat) : List Nat :=
  file.take pos ++ bytes ++ file.drop (pos + bytes.length)

/-- `SSTableIndex::persist`: open with `create(true).write(true)` (no
truncate) and `write_all` the serialized map from position 0 over the
file's prior content `old`. -/
def persistIdxFile (old : List Nat) (m : IdxMap) : List Nat :=
  writeAt old 0 (encodeMap m)

/-! ## SSTable writer (`sstable/sstable_writer.rs`) -/

/-- `SSTableWriter`: in-memory index, the data file's content at open
(`baseData`, the writer appends), the bytes written through the
`BufWriter`, the index file's content at open (persist targets it), and
the running `offset`. -/
structure SSTableWriter where
  index : IdxMap
  baseData : List Nat
  idxFile0 : List Nat
  written : List Nat
  offset : Nat
deriving DecidableEq, Repr

/-- `SSTableWriter::new` over the data file's and index file's current
content (both empty for a fresh path): loads the index, opens the data
file in append mode and records its length as the starting offset. -/
def SSTableWriter.new (dataFile idxFile : List Nat) : Option SSTableWriter :=
  match decodeIdxFile idxFile with
  | none => none
  | some idx => some ⟨idx, dataFile, idxFile, [], dataFile.length⟩

/-- `SSTableWriter::contains_key`. -/
def SSTableWriter.contains_key (w : SSTableWriter) (k : List Nat) : Bool :=
  idxContains w.index k

/-- `SSTableWriter::set`: write the entry bytes, record `key → offset`,
then advance `offset` by the writer's current stream position (the
append-mode position after the write: file base length plus all bytes
written so far). -/
def SSTableWriter.set (w : SSTableWriter) (e : Entry) : SSTableWriter :=
  let written' := w.written ++ e.write_to
  { w with
    written := written'
    index := idxInsert w.index e.key w.offset
    offset := w.offset + (w.baseData.length + written'.length) }

/-- `SSTableWriter::flush`: the resulting data file content and index
file content (index persisted without truncation over its prior
content). -/
def SSTableWriter.flush (w : SSTableWriter) : List Nat × List Nat :=
  (w.baseData ++ w.written, persistIdxFile w.idxFile0 w.index)

/-! ## SSTable reader (`sstable/sstable_reader.rs`) -/

/-- `SSTableReader`: the loaded index and the data file content. -/
structure SSTableReader where
  index : IdxMap
  data : List Nat
deriving DecidableEq, Repr

/-- `SSTableReader::new`: load the accompanying index (an error there
fails the open). -/
def SSTableReader.new (dataFile idxFile : List Nat) : Option SSTableReader :=
  match decodeIdxFile idxFile with
  | none => none
  | some idx => some ⟨idx, dataFile⟩

/-- `SSTableReader::read`: seek to `offset` and decode one entry. -/
def SSTableReader.read (r : SSTableReader) (offset : Nat) : Option Entry :=
  (Entry.read_from (r.data.drop offset)).map Prod.fst

/-- `SSTableReader::get`: look the key up in the index and decode at its
offset; not-present when the key is absent or decoding fails. -/
def SSTableReader.get (r : SSTableReader) (k : List Nat) : Option Entry :=
  match idxLookup r.index k with
  | some off => r.read off
  | none => none

/-! ## Directory model and SSTable querier (`sstable_querier.rs`)

Filenames are microsecond timestamps; they are embedded as `Nat` names
(the querier's lexicographic path sort coincides with the numeric order
for the equal-width decimal names the engine generates). -/

/-- A file in the database directory: numeric filename and content. -/
abbrev NamedFile := Nat × List Nat

/-- Content of the named file, if present. -/
def lookupFile : List NamedFile → Nat → Option (List Nat)
  | [], _ => none
  | f :: t, n => if f.1 == n then some f.2 else lookupFile t n

/-- Create or overwrite the named file. -/
def upsertFile : List NamedFile → Nat → List Nat → List NamedFile
  | [], n, b => [(n, b)]
  | f :: t, n, b => if f.1 == n then (n, b) :: t else f :: upsertFile t n b

/-- Insertion step for the descending (newest-first) sort. -/
def insertDesc (x : NamedFile) : List NamedFile → List NamedFile
  | [] => [x]
  | y :: ys => if x.1 < y.1 then y :: insertDesc x ys else x :: y :: ys

/-- `sort_by(|a, b| b.cmp(a))`: filenames descending, newest first. -/
def sortDesc (l : List NamedFile) : List NamedFile :=
  l.foldr insertDesc []

/-- The directory shared by the database and the compactor: the `.db`
data files and their `.db.idx` index files, keyed by base name.  (The
active WAL segment is held separately by the database.) -/
structure Dir where
  dbFiles : List NamedFile
  idxFiles : List NamedFile
deriving DecidableEq, Repr

/-- `SSTableQuerier::query`'s loop over the newest-first data files.
Opening a reader reads the `.idx` sibling; a missing index file is
created empty by `SSTableIndexBuilder` (so that file reports
not-present and the loop continues), while an index that fails to
deserialize aborts the whole query with `None`.  Returns the result and
the directory's index files (including any created empty ones). -/
def queryGo : List NamedFile → List NamedFile → List Nat →
    Option Entry × List NamedFile
  | [], idxs, _ => (none, idxs)
  | f :: rest, idxs, k =>
    match lookupFile idxs f.1 with
    | none => queryGo rest (idxs ++ [(f.1, [])]) k
    | some idxBytes =>
      match decodeIdxFile idxBytes with
      | none => (none, idxs)
      | some idx =>
        match SSTableReader.get ⟨idx, f.2⟩ k with
        | some e => (some e, idxs)
        | none => queryGo rest idxs k

/-- `SSTableQuerier::new` + `query`: enumerate `.db` files, sort
descending, and return the first hit. -/
def SSTableQuerier.query (d : Dir) (k : List Nat) :
    Option Entry × List NamedFile :=
  queryGo (sortDesc d.dbFiles) d.idxFiles k

/-! ## Database façade (`database.rs`) -/

/-- `DbEntry`. -/
structure DbEntry where
  key : List Nat
  value : List Nat
  timestamp : Nat
deriving DecidableEq, Repr

/-- `Database`: directory, active WAL segment content, MemTable, and
the flush threshold. -/
structure Database where
  dir : Dir
  walBytes : List Nat
  mem_table : MemTable
  max_mem_table_size : Nat
deriving DecidableEq, Repr

/-- `Database::get`: consult the MemTable; on miss, build a querier and
query the SSTables.  A tombstone from either source is not-present.
Returns the result together with the database state (whose directory
may have gained empty index files created while opening readers). -/
def Database.get (db : Database) (k : List Nat) : Option DbEntry × Database :=
  match db.mem_table.get k with
  | some e =>
    (if e.is_deleted then none else some ⟨e.key, e.value.getD [], e.timestamp⟩,
      db)
  | none =>
    let q := SSTableQuerier.query db.dir k
    let db' : Database := { db with dir := { db.dir with idxFiles := q.2 } }
    match q.1 with
    | none => (none, db')
    | some e =>
      (if e.is_deleted then none else some ⟨e.key, e.value.getD [], e.timestamp⟩,
        db')

/-- `Database::persist_to_sstable`: when the MemTable has reached the
threshold, write every MemTable entry to a new SSTable named by a fresh
timestamp, flush it, delete the active WAL file, and re-open, which for
a directory with no remaining WAL segments yields an empty WAL and
MemTable. -/
def Database.persist_to_sstable (db : Database) (tsSst : Nat) :
    Option Database :=
  if db.max_mem_table_size ≤ db.mem_table.size then
    match SSTableWriter.new ((lookupFile db.dir.dbFiles tsSst).getD [])
        ((lookupFile db.dir.idxFiles tsSst).getD []) with
    | none => none
    | some w0 =>
      let w := db.mem_table.entries.foldl SSTableWriter.set w0
      some { dir := { dbFiles := upsertFile db.dir.dbFiles tsSst w.flush.1,
                      idxFiles := upsertFile db.dir.idxFiles tsSst w.flush.2 },
             walBytes := [],
             mem_table := MemTable.new,
             max_mem_table_size := db.max_mem_table_size }
  else some db

/-- `Database::set` with timestamp `ts` from the clock (`tsSst` names
the SSTable should a flush trigger): append the entry to the WAL, flush
it, apply to the MemTable, then maybe flush to an SSTable.  Returns the
record count (always 1) and the new state. -/
def Database.set (db : Database) (k v : List Nat) (ts tsSst : Nat) :
    Option (Nat × Database) :=
  let db1 : Database :=
    { db with
      walBytes := db.walBytes ++ Entry.write_to ⟨k, some v, ts⟩
      mem_table := db.mem_table.set k v ts }
  (db1.persist_to_sstable tsSst).map (fun db2 => (1, db2))

/-! ## Compaction (`compaction.rs`) -/

/-- `SSTableScanHandler::handle` on state (output writer, deleted-keys
list): tombstones are recorded and skipped, keys already in the output
are skipped, everything else is appended to the output. -/
def scanStep (st : SSTableWriter × List (List Nat)) (e : Entry) :
    SSTableWriter × List (List Nat) :=
  if e.is_deleted then (st.1, st.2 ++ [e.key])
  else if st.1.contains_key e.key then st
  else (st.1.set e, st.2)

/-- `SSTableReader::scan`: iterate the index's key/offset pairs in key
order, decode each offset, and hand every successfully decoded entry to
the handler. -/
def scanFile (st : SSTableWriter × List (List Nat)) (r : SSTableReader) :
    SSTableWriter × List (List Nat) :=
  r.index.foldl (fun st p =>
    match r.read p.2 with
    | some e => scanStep st e
    | none => st) st

/-- Open the reader of a candidate data file (its `.idx` sibling is
created empty when absent). -/
def openReader (d : Dir) (f : NamedFile) : Option SSTableReader :=
  SSTableReader.new f.2 ((lookupFile d.idxFiles f.1).getD [])

/-- The entries the scan of one input file hands to the handler. -/
def fileEntries (d : Dir) (f : NamedFile) : List Entry :=
  match openReader d f with
  | none => []
  | some r => r.index.filterMap (fun p => r.read p.2)

/-- All entries a compaction run processes, in processing order
(candidate files newest-first, each scanned in key order). -/
def scannedEntries (d : Dir) (size : Nat) : List Entry :=
  ((sortDesc (d.dbFiles.filter (fun f => f.2.length < size))).map
    (fileEntries d)).flatten

/-- The compaction loop over the candidate files: open each reader (an
error aborts the run) and scan it into the accumulated state. -/
def compactScan (d : Dir) :
    List NamedFile → SSTableWriter × List (List Nat) →
    Option (SSTableWriter × List (List Nat))
  | [], st => some st
  | f :: fs, st =>
    match openReader d f with
    | none => none
    | some r => compactScan d fs (scanFile st r)

/-- `Compaction::remove_deleted_keys`: open every `.idx` file, remove
each deleted key from its map, and re-persist it in place (without
truncation) over its prior content. -/
def removeDeletedKeys : List NamedFile → List (List Nat) →
    Option (List NamedFile)
  | [], _ => some []
  | f :: fs, dels =>
    match decodeIdxFile f.2 with
    | none => none
    | some m =>
      (removeDeletedKeys fs dels).map
        (fun rest => (f.1, persistIdxFile f.2 (removeKeys m dels)) :: rest)

/-- `Compaction::compact` over the directory with size threshold `size`;
`tsName` is the fresh timestamp naming the output SSTable.  Selects the
data files smaller than the threshold, scans them newest-first into a
new SSTable, flushes it, deletes the input data files (their `.idx`
siblings stay), and removes the collected deleted keys from every
remaining `.idx` file. -/
def Compaction.compact (d : Dir) (size tsName : Nat) : Option Dir :=
  let files := d.dbFiles.filter (fun f => f.2.length < size)
  if files.isEmpty then some d
  else
    match SSTableWriter.new ((lookupFile d.dbFiles tsName).getD [])
        ((lookupFile d.idxFiles tsName).getD []) with
    | none => none
    | some w0 =>
      match compactScan d (sortDesc files) (w0, []) with
      | none => none
      | some st =>
        let dbFiles1 := upsertFile d.dbFiles tsName st.1.flush.1
        let idxFiles1 := upsertFile d.idxFiles tsName st.1.flush.2
        let dbFiles2 :=
          dbFiles1.filter (fun f => !((sortDesc files).any (fun g => g.1 == f.1)))
        (removeDeletedKeys idxFiles1 st.2).map
          (fun idxFiles2 => ⟨dbFiles2, idxFiles2⟩)

/-! ## Invariants of index maps (verification layer) -/

/-- Bounds forced by the Rust types: entry count and key lengths fit in
`u64`, offsets are `u64`. -/
def MapWF (m : IdxMap) : Prop :=
  m.length < 256 ^ 8 ∧ ∀ p ∈ m, p.1.length < 256 ^ 8 ∧ p.2 < 256 ^ 8

/-- The `BTreeMap` ordering invariant: keys strictly ascending. -/
abbrev IdxSorted (m : IdxMap) : Prop :=
  m.Pairwise (fun p q => bytesLt p.1 q.1 = true)

/-! ## Concrete scenario inputs -/

/-- Concrete entry, key 97. -/
def entryA : Entry := ⟨[97], some [1], 1⟩

/-- Concrete entry, key 98. -/
def entryB : Entry := ⟨[98], some [2], 2⟩

/-- Concrete entry, key 99. -/
def entryC : Entry := ⟨[99], some [3], 3⟩

/-- A writer on a fresh path after `set`ting the three entries with
pairwise-distinct keys. -/
def threeEntryWriter : Option SSTableWriter :=
  (SSTableWriter.new [] []).map (fun w0 => ((w0.set entryA).set entryB).set entryC)

/-- A database opened over an empty directory with a 40-byte MemTable
threshold. -/
def smallDb : Database := ⟨⟨[], []⟩, [], MemTable.new, 40⟩

/-- The database after setting keys 97, 98, 99: the third `set` reaches
the threshold, so the MemTable is flushed into SSTable `52.db`. -/
def smallDbAfter3 : Option Database :=
  ((smallDb.set [97] [1] 1 50).bind (fun p => p.2.set [98] [2] 2 51)).bind
    (fun p => (p.2.set [99] [3] 3 52).map Prod.snd)

/-- A directory whose newest SSTable (`20.db`) has a corrupt index file
and whose older SSTable (`10.db`) contains key `[7]` at offset 0. -/
def raceDir : Dir :=
  ⟨[(20, [0, 0]), (10, (Entry.mk [7] (some [9]) 5).write_to)],
    [(20, [1, 2, 3]), (10, encodeMap [([7], 0)])]⟩

/-- A compaction input directory: the newer SSTable (`20.db`) holds a
tombstone for key `[7]`, the older one (`10.db`) holds a live value for
it, and both index files are present. -/
def tombDir : Dir :=
  ⟨[(20, (Entry.mk [7] none 10).write_to),
      (10, (Entry.mk [7] (some [1]) 5).write_to)],
    [(20, encodeMap [([7], 0)]), (10, encodeMap [([7], 0)])]⟩

/-- The directory produced by compacting `tombDir` with threshold 100
and output name 30: one output data file, and every index file
re-persisted (without truncation) with key `[7]` removed. -/
def tombDirOut : Dir :=
  ⟨[(30, [1, 0, 0, 0, 0, 0, 0, 0, 7, 0, 1, 0, 0, 0, 0, 0, 0, 0, 1, 5, 0, 0,
      0, 0, 0, 0, 0, 0, 0, 0, 0, 0, 0, 0, 0])],
    [(20, [0, 0, 0, 0, 0, 0, 0, 0, 1, 0, 0, 0, 0, 0, 0, 0, 7, 0, 0, 0, 0, 0,
        0, 0, 0]),
      (10, [0, 0, 0, 0, 0, 0, 0, 0, 1, 0, 0, 0, 0, 0, 0, 0, 7, 0, 0, 0, 0, 0,
        0, 0, 0]),
      (30, [0, 0, 0, 0, 0, 0, 0, 0, 1, 0, 0, 0, 0, 0, 0, 0, 7, 0, 0, 0, 0, 0,
        0, 0, 0])]⟩

/-- A database over a directory holding one data file (`10.db`) whose
`.idx` sibling is missing (an orphan data file), and an empty
MemTable. -/
def orphanDb : Database :=
  ⟨⟨[(10, (Entry.mk [5] (some [1]) 9).write_to)], []⟩, [], MemTable.new, 100⟩

/-- A database over a directory holding one SSTable (key `[5]` at
offset 0) with its index file present, and an empty MemTable. -/
def oneSstDb : Database :=
  ⟨⟨[(10, (Entry.mk [5] (some [1]) 9).write_to)], [(10, encodeMap [([5], 0)])]⟩,
    [], MemTable.new, 100⟩

/-- `raceDir` with a third, newest SSTable (`30.db`) that opens fine but
does not contain key `[7]`. -/
def raceDir3 : Dir :=
  ⟨[(30, (Entry.mk [5] (some [1]) 9).write_to), (20, [0, 0]),
      (10, (Entry.mk [7] (some [9]) 5).write_to)],
    [(30, encodeMap [([5], 0)]), (20, [1, 2, 3]),
      (10, encodeMap [([7], 0)])]⟩

end SimpleDb

namespace SimpleDb

/-! ## Helper theorems -/

theorem toLEBytes_length (n w : Nat) : (toLEBytes n w).length = w := by
  induction w generalizing n with
  | zero => rfl
  | succ w ih => simp [toLEBytes, ih]

theorem fromLEBytes_toLEBytes (n w : Nat) :
    fromLEBytes (toLEBytes n w) = n % 256 ^ w := by
  induction w generalizing n with
  | zero =>
    simp only [toLEBytes, fromLEBytes, pow_zero]
    omega
  | succ w ih =>
    simp only [toLEBytes, fromLEBytes, ih]
    rw [pow_succ, mul_comm (256 ^ w) 256, Nat.mod_mul]
    generalize n / 256 % 256 ^ w = t
    omega

theorem fromLEBytes_toLEBytes_of_lt {n w : Nat} (h : n < 256 ^ w) :
    fromLEBytes (toLEBytes n w) = n := by
  rw [fromLEBytes_toLEBytes, Nat.mod_eq_of_lt h]

theorem readExact_append {l : List Nat} {n : Nat} (rest : List Nat)
    (h : l.length = n) : readExact n (l ++ rest) = some (l, rest) := by
  subst h
  simp [readExact, List.take_left, List.drop_left]

/-- Decoding an encoded entry (with arbitrary trailing bytes) recovers
the entry and the trailing bytes. -/
theorem Entry.read_from_write_to (e : Entry) (rest : List Nat) (hwf : e.WF) :
    Entry.read_from (e.write_to ++ rest) = some (e, rest) := by
  obtain ⟨hk, hv, ht⟩ := hwf
  cases e with
  | mk key value ts =>
    have hk' : key.length < 256 ^ 8 := hk
    have ht' : ts < 256 ^ 16 := ht
    cases value with
    | none =>
      have e1 : readExact 8
          (toLEBytes key.length 8 ++ (key ++ (1 :: (toLEBytes ts 16 ++ rest)))) =
          some (toLEBytes key.length 8, key ++ (1 :: (toLEBytes ts 16 ++ rest))) :=
        readExact_append _ (toLEBytes_length _ _)
      have e2 : readExact key.length (key ++ (1 :: (toLEBytes ts 16 ++ rest))) =
          some (key, 1 :: (toLEBytes ts 16 ++ rest)) := readExact_append _ rfl
      have e3 : readExact 1 (1 :: (toLEBytes ts 16 ++ rest)) =
          some ([1], toLEBytes ts 16 ++ rest) :=
        @readExact_append [1] 1 (toLEBytes ts 16 ++ rest) rfl
      have e4 : readExact 16 (toLEBytes ts 16 ++ rest) =
          some (toLEBytes ts 16, rest) := readExact_append _ (toLEBytes_length _ _)
      simp [Entry.read_from, Entry.write_to, Entry.is_deleted, e1, e2, e3, e4,
        fromLEBytes_toLEBytes_of_lt hk', fromLEBytes_toLEBytes_of_lt ht']
    | some v =>
      have hv' : v.length < 256 ^ 8 := hv v rfl
      have e1 : readExact 8 (toLEBytes key.length 8 ++ (key ++ (0 ::
          (toLEBytes v.length 8 ++ (v ++ (toLEBytes ts 16 ++ rest)))))) =
          some (toLEBytes key.length 8, key ++ (0 ::
            (toLEBytes v.length 8 ++ (v ++ (toLEBytes ts 16 ++ rest))))) :=
        readExact_append _ (toLEBytes_length _ _)
      have e2 : readExact key.length (key ++ (0 ::
          (toLEBytes v.length 8 ++ (v ++ (toLEBytes ts 16 ++ rest))))) =
          some (key, 0 :: (toLEBytes v.length 8 ++ (v ++ (toLEBytes ts 16 ++ rest)))) :=
        readExact_append _ rfl
      have e3 : readExact 1 (0 ::
          (toLEBytes v.length 8 ++ (v ++ (toLEBytes ts 16 ++ rest)))) =
          some ([0], toLEBytes v.length 8 ++ (v ++ (toLEBytes ts 16 ++ rest))) :=
        @readExact_append [0] 1 (toLEBytes v.length 8 ++ (v ++ (toLEBytes ts 16 ++ rest))) rfl
      have e4 : readExact 8 (toLEBytes v.length 8 ++ (v ++ (toLEBytes ts 16 ++ rest))) =
          some (toLEBytes v.length 8, v ++ (toLEBytes ts 16 ++ rest)) :=
        readExact_append _ (toLEBytes_length _ _)
      have e5 : readExact v.length (v ++ (toLEBytes ts 16 ++ rest)) =
          some (v, toLEBytes ts 16 ++ rest) := readExact_append _ rfl
      have e6 : readExact 16 (toLEBytes ts 16 ++ rest) =
          some (toLEBytes ts 16, rest) := readExact_append _ (toLEBytes_length _ _)
      simp [Entry.read_from, Entry.write_to, Entry.is_deleted, e1, e2, e3, e4,
        e5, e6, fromLEBytes_toLEBytes_of_lt hk', fromLEBytes_toLEBytes_of_lt hv',
        fromLEBytes_toLEBytes_of_lt ht']

theorem findEntry_key {entries : List Entry} {key : List Nat} {e : Entry}
    (h : findEntry entries key = some e) : e.key = key := by
  induction entries with
  | nil => simp [findEntry] at h
  | cons x xs ih =>
    rw [findEntry, List.find?] at h
    cases hx : (x.key == key) with
    | true =>
      simp only [hx] at h
      cases h
      exact eq_of_beq hx
    | false =>
      simp only [hx] at h
      exact ih h

theorem entrySize_le_sumSizes {entries : List Entry} {key : List Nat}
    {e : Entry} (h : findEntry entries key = some e) :
    entrySize e ≤ sumSizes entries := by
  induction entries with
  | nil => simp [findEntry] at h
  | cons x xs ih =>
    rw [findEntry, List.find?] at h
    cases hx : (x.key == key) with
    | true =>
      simp only [hx] at h
      cases h
      simp [sumSizes]
    | false =>
      simp only [hx] at h
      have := ih h
      simp only [sumSizes]
      omega

theorem sumSizes_replaceEntry {entries : List Entry} {key : List Nat}
    {old : Entry} (e : Entry) (h : findEntry entries key = some old) :
    sumSizes (replaceEntry entries key e) + entrySize old =
      sumSizes entries + entrySize e := by
  induction entries with
  | nil => simp [findEntry] at h
  | cons x xs ih =>
    rw [findEntry, List.find?] at h
    cases hx : (x.key == key) with
    | true =>
      simp only [hx] at h
      cases h
      simp only [replaceEntry, hx, if_true, sumSizes]
      omega
    | false =>
      simp only [hx] at h
      have := ih h
      simp only [replaceEntry, hx, Bool.false_eq_true, if_false, sumSizes]
      omega

theorem sumSizes_insertSorted (e : Entry) (entries : List Entry) :
    sumSizes (insertSorted e entries) = entrySize e + sumSizes entries := by
  induction entries with
  | nil => simp [insertSorted, sumSizes]
  | cons x xs ih =>
    rw [insertSorted]
    by_cases hx : bytesLt x.key e.key
    · simp only [if_pos hx, sumSizes, ih]
      omega
    · simp only [if_neg hx, sumSizes]

/-- The spec's size accounting holds in every reachable MemTable. -/
theorem reachable_size_eq {m : MemTable} (h : m.Reachable) :
    m.size = sumSizes m.entries := by
  induction h with
  | new => rfl
  | set m key value ts _ ih =>
    rw [MemTable.set]
    cases hf : findEntry m.entries key with
    | some old =>
      simp only
      have hrepl := sumSizes_replaceEntry (⟨key, some value, ts⟩ : Entry) hf
      have hle := entrySize_le_sumSizes hf
      have hkey := findEntry_key hf
      have hOldSize : entrySize old = key.length + valLen old.value +
          TIMESTAMP_SIZE + TOMBSTONE_SIZE := by
        rw [entrySize, hkey]
      have hNewSize : entrySize (⟨key, some value, ts⟩ : Entry) =
          key.length + value.length + TIMESTAMP_SIZE + TOMBSTONE_SIZE := rfl
      rw [ih]
      omega
    | none =>
      simp only
      rw [sumSizes_insertSorted, ih, entrySize]
      simp [valLen]
      omega
  | delete m key ts _ ih =>
    rw [MemTable.delete]
    cases hf : findEntry m.entries key with
    | some old =>
      simp only
      have hrepl := sumSizes_replaceEntry (⟨key, none, ts⟩ : Entry) hf
      have hle := entrySize_le_sumSizes hf
      have hkey := findEntry_key hf
      have hOldSize : entrySize old = key.length + valLen old.value +
          TIMESTAMP_SIZE + TOMBSTONE_SIZE := by
        rw [entrySize, hkey]
      have hNewSize : entrySize (⟨key, none, ts⟩ : Entry) =
          key.length + 0 + TIMESTAMP_SIZE + TOMBSTONE_SIZE := rfl
      rw [ih]
      omega
    | none =>
      simp only
      rw [sumSizes_insertSorted, ih, entrySize]
      simp [valLen]
      omega

theorem encodeEntries_length (ops : List Entry) :
    ops.length ≤ (encodeEntries ops).length := by
  induction ops with
  | nil => simp [encodeEntries]
  | cons e es ih =>
    have h1 : 1 ≤ e.write_to.length := by
      rw [Entry.write_to]
      cases e.value <;> simp [toLEBytes_length] <;> omega
    simp only [encodeEntries, List.length_append, List.length_cons]
    omega

theorem decodeEntries_encodeEntries (ops : List Entry) (fuel : Nat)
    (hwf : ∀ e ∈ ops, e.WF) (hfuel : ops.length ≤ fuel) :
    decodeEntries fuel (encodeEntries ops) = ops := by
  induction ops generalizing fuel with
  | nil =>
    cases fuel with
    | zero => rfl
    | succ n => rfl
  | cons e es ih =>
    cases fuel with
    | zero => simp at hfuel
    | succ n =>
      rw [encodeEntries, decodeEntries,
        Entry.read_from_write_to e _ (hwf e (by simp))]
      dsimp only
      rw [ih n (fun x hx => hwf x (List.mem_cons_of_mem _ hx))
        (by simpa using hfuel)]

theorem findEntry_replaceEntry {l : List Entry} {k : List Nat} {old : Entry}
    (e : Entry) (hfind : findEntry l k = some old) (hk : e.key = k) :
    findEntry (replaceEntry l k e) k = some e := by
  induction l with
  | nil => simp [findEntry] at hfind
  | cons x xs ih =>
    rw [findEntry, List.find?] at hfind
    cases hx : (x.key == k) with
    | true =>
      simp only [replaceEntry, hx, if_true]
      rw [findEntry, List.find?]
      simp [hk]
    | false =>
      simp only [hx] at hfind
      simp only [replaceEntry, hx, Bool.false_eq_true, if_false]
      rw [findEntry, List.find?]
      simp only [hx]
      exact ih hfind

theorem findEntry_insertSorted {l : List Entry} {k : List Nat}
    (e : Entry) (hnone : findEntry l k = none) (hk : e.key = k) :
    findEntry (insertSorted e l) k = some e := by
  induction l with
  | nil =>
    rw [insertSorted, findEntry, List.find?]
    simp [hk]
  | cons x xs ih =>
    rw [findEntry, List.find?] at hnone
    cases hx : (x.key == k) with
    | true =>
      simp only [hx] at hnone
      cases hnone
    | false =>
      simp only [hx] at hnone
      rw [insertSorted]
      by_cases hlt : bytesLt x.key e.key
      · rw [if_pos hlt, findEntry, List.find?]
        simp only [hx]
        exact ih hnone
      · rw [if_neg hlt, findEntry, List.find?]
        simp [hk]

/-- After one replay step for `e`, the MemTable's entry for `e.key` is
exactly `e` (the overwrite policy: the later entry wins). -/
theorem findEntry_applyEntry (e : Entry) (m : MemTable) :
    findEntry ((applyEntry e m).entries) e.key = some e := by
  cases e with
  | mk key value ts =>
    cases value with
    | none =>
      rw [applyEntry]
      dsimp only
      rw [MemTable.delete]
      cases hf : findEntry m.entries key with
      | some old =>
        dsimp only
        exact findEntry_replaceEntry _ hf rfl
      | none =>
        dsimp only
        exact findEntry_insertSorted _ hf rfl
    | some v =>
      rw [applyEntry]
      dsimp only
      rw [MemTable.set]
      cases hf : findEntry m.entries key with
      | some old =>
        dsimp only
        exact findEntry_replaceEntry _ hf rfl
      | none =>
        dsimp only
        exact findEntry_insertSorted _ hf rfl

end SimpleDb

/-! ## Claim theorems -/

/-- C8: for every entry with arbitrary key bytes, optional value bytes
and a `u128` timestamp (well-formed, as the Rust types force), writing
it with `Entry::write_to` and decoding the produced byte stream with
`Entry::read_from` yields back an entry with the same key, value and
timestamp. -/
theorem C8_entry_codec_roundtrip (e : SimpleDb.Entry) (hwf : e.WF) :
    SimpleDb.Entry.read_from e.write_to = some (e, []) := by
  have h := SimpleDb.Entry.read_from_write_to e [] hwf
  simpa using h

/-- Witness for C8 at a concrete entry. -/
theorem C8_entry_codec_roundtrip_witness :
    (SimpleDb.Entry.mk [104, 105] (some [1, 2, 3]) 42).WF ∧
      SimpleDb.Entry.read_from
          (SimpleDb.Entry.mk [104, 105] (some [1, 2, 3]) 42).write_to =
        some (SimpleDb.Entry.mk [104, 105] (some [1, 2, 3]) 42, []) :=
  ⟨by decide, C8_entry_codec_roundtrip _ (by decide)⟩

/-- C5: for every MemTable reachable from `MemTable::new` by any
sequence of `set` and `delete` calls, the `size` field equals the sum,
over all stored entries, of `len(key) + len(value, if the entry is not
a tombstone) + 16 + 1`. -/
theorem C5_memtable_size_invariant (m : SimpleDb.MemTable)
    (h : m.Reachable) : m.size = SimpleDb.sumSizes m.entries :=
  SimpleDb.reachable_size_eq h

/-- Witness for C5 on a concrete reachable MemTable. -/
theorem C5_memtable_size_invariant_witness :
    ((SimpleDb.MemTable.new.set [1] [2, 3] 5).delete [1] 7).size =
      SimpleDb.sumSizes
        ((SimpleDb.MemTable.new.set [1] [2, 3] 5).delete [1] 7).entries :=
  C5_memtable_size_invariant _
    (SimpleDb.MemTable.Reachable.delete _ _ _
      (SimpleDb.MemTable.Reachable.set _ _ _ _ SimpleDb.MemTable.Reachable.new))

/-- C10: in every reachable MemTable, whenever `set` or `delete` finds
an existing entry for the key, the length of that entry's stored value
(if present) is at most the current `size`, so the subtraction
`size -= len(old_value)` performed before replacement never
underflows. -/
theorem C10_no_size_underflow (m : SimpleDb.MemTable) (h : m.Reachable)
    (key : List Nat) (old : SimpleDb.Entry)
    (hf : SimpleDb.findEntry m.entries key = some old) :
    SimpleDb.valLen old.value ≤ m.size := by
  have h1 := SimpleDb.reachable_size_eq h
  have h2 := SimpleDb.entrySize_le_sumSizes hf
  rw [SimpleDb.entrySize] at h2
  omega

/-- Witness for C10 on a concrete reachable MemTable. -/
theorem C10_no_size_underflow_witness :
    SimpleDb.findEntry (SimpleDb.MemTable.new.set [1] [2] 3).entries [1] =
        some ⟨[1], some [2], 3⟩ ∧
      SimpleDb.valLen (some [2]) ≤ (SimpleDb.MemTable.new.set [1] [2] 3).size :=
  ⟨by decide,
    C10_no_size_underflow _
      (SimpleDb.MemTable.Reachable.set _ _ _ _ SimpleDb.MemTable.Reachable.new)
      [1] ⟨[1], some [2], 3⟩ (by decide)⟩

/-- C3: for every finite sequence `ops` of set/delete operations written
to a single WAL segment and flushed, `restore_from_dir` yields a
MemTable equal to applying `ops` left-to-right to an empty MemTable;
and when two entries name the same key, the later entry wins: after
replaying any prefix followed by `e`, the stored entry for `e.key` is
exactly `e`. -/
theorem C3_wal_restore_refinement (ops : List SimpleDb.Entry)
    (hwf : ∀ e ∈ ops, e.WF) :
    SimpleDb.walRestoreMemTable (SimpleDb.encodeEntries ops) =
        SimpleDb.applyEntries ops SimpleDb.MemTable.new ∧
      ∀ (pre : List SimpleDb.Entry) (e : SimpleDb.Entry),
        SimpleDb.findEntry
            ((SimpleDb.applyEntries (pre ++ [e]) SimpleDb.MemTable.new).entries)
            e.key = some e := by
  constructor
  · rw [SimpleDb.walRestoreMemTable,
      SimpleDb.decodeEntries_encodeEntries ops _ hwf
        (SimpleDb.encodeEntries_length ops)]
  · intro pre e
    rw [SimpleDb.applyEntries, List.foldl_append]
    exact SimpleDb.findEntry_applyEntry e _

/-- Witness for C3 on a concrete operation sequence with a repeated
key. -/
theorem C3_wal_restore_refinement_witness :
    (∀ e ∈ ([⟨[1], some [5], 1⟩, ⟨[1], some [6], 2⟩, ⟨[2], none, 3⟩] :
        List SimpleDb.Entry), e.WF) ∧
      SimpleDb.walRestoreMemTable
          (SimpleDb.encodeEntries
            [⟨[1], some [5], 1⟩, ⟨[1], some [6], 2⟩, ⟨[2], none, 3⟩]) =
        SimpleDb.applyEntries
          [⟨[1], some [5], 1⟩, ⟨[1], some [6], 2⟩, ⟨[2], none, 3⟩]
          SimpleDb.MemTable.new :=
  ⟨by decide, (C3_wal_restore_refinement _ (by decide)).1⟩

set_option maxRecDepth 8000 in
/-- C1: the claim states that for every SSTable built by a fresh-path
writer from pairwise-distinct keys, the offset recorded in the index
for each key decodes to the entry written for that key.  This theorem
evaluates the code at the failing input: after three `set`s the index
records offset 105 for the third key, which is the end of the 105-byte
data file, so `SSTableReader::get` decodes nothing there (the writer
advances `offset` by the cumulative stream position rather than by the
record's length). -/
theorem C1_index_offset_bug :
    SimpleDb.threeEntryWriter.bind (fun w =>
        (SimpleDb.SSTableReader.new w.flush.1 w.flush.2).map (fun r =>
          (w.flush.1.length, SimpleDb.idxLookup r.index SimpleDb.entryC.key,
            r.get SimpleDb.entryC.key))) =
      some (105, some 105, none) := by
  decide

set_option maxRecDepth 8000 in
/-- C2: the claim states `set(K,V)` followed by `get(K)` returns
`(K,V,ts)` in every database state.  This theorem evaluates the code at
the failing input: with a 40-byte threshold, the third `set` flushes the
MemTable through the SSTable writer, whose offset accounting records
the third sorted key at offset 105 (the file's end), so the immediately
following `get` of that key returns nothing. -/
theorem C2_read_your_writes_bug :
    SimpleDb.smallDbAfter3.map (fun db => (db.get [99]).1) = some none := by
  decide

/-- C6 counterexample: `persist` does not truncate.  Persisting an empty
map (an 8-byte encoding) over a 9-byte prior file content leaves the
stale ninth byte, so the file is not exactly the serialized encoding. -/
theorem C6_persist_counterexample :
    SimpleDb.persistIdxFile (List.replicate 9 7) [] ≠
      SimpleDb.encodeMap ([] : SimpleDb.IdxMap) := by decide

/-- C6 (amended): `persist` opens the index file with
`create(true).write(true)` and no truncation, overwriting from offset 0:
the resulting file is the new encoding followed by whatever prior bytes
extended past it; it equals exactly the serialized encoding of the
current map precisely when the prior content is not longer than the new
encoding. -/
theorem C6_persist_overwrites_without_truncation (m : SimpleDb.IdxMap)
    (old : List Nat) :
    SimpleDb.persistIdxFile old m =
        SimpleDb.encodeMap m ++ old.drop (SimpleDb.encodeMap m).length ∧
      (old.length ≤ (SimpleDb.encodeMap m).length →
        SimpleDb.persistIdxFile old m = SimpleDb.encodeMap m) ∧
      ((SimpleDb.encodeMap m).length < old.length →
        SimpleDb.persistIdxFile old m ≠ SimpleDb.encodeMap m) := by
  refine ⟨?_, ?_, ?_⟩
  · simp [SimpleDb.persistIdxFile, SimpleDb.writeAt]
  · intro h
    simp [SimpleDb.persistIdxFile, SimpleDb.writeAt,
      List.drop_eq_nil_of_le h]
  · intro h heq
    have hlen := congrArg List.length heq
    simp [SimpleDb.persistIdxFile, SimpleDb.writeAt, List.length_append,
      List.length_drop] at hlen
    omega

/-- Witness for the amended C6 at a concrete map and a shorter prior
content. -/
theorem C6_persist_overwrites_without_truncation_witness :
    ([9] : List Nat).length ≤ (SimpleDb.encodeMap [([3], 4)]).length ∧
      SimpleDb.persistIdxFile [9] [([3], 4)] =
        SimpleDb.encodeMap [([3], 4)] :=
  ⟨by decide,
    (C6_persist_overwrites_without_truncation [([3], 4)] [9]).2.1 (by decide)⟩

/-- C7 counterexample: in `raceDir` the newest SSTable's index is
corrupt, the older SSTable contains key `[7]` (its reader returns the
entry), yet the query returns not-present instead of that older
entry. -/
theorem C7_querier_counterexample :
    (SimpleDb.SSTableQuerier.query SimpleDb.raceDir [7]).1 = none ∧
      (SimpleDb.SSTableReader.new (SimpleDb.Entry.mk [7] (some [9]) 5).write_to
          (SimpleDb.encodeMap [([7], 0)])).map (fun r => r.get [7]) =
        some (some (SimpleDb.Entry.mk [7] (some [9]) 5)) := by decide

/-- C7 (amended): when opening the reader of one data file fails (its
index file is present but does not deserialize), `SSTableQuerier::query`
logs and returns not-present for the entire query immediately: the
remaining (older) files in the descending order are not consulted, for
every directory in which the files before the failing one open
successfully and miss the key. -/
theorem C7_querier_open_error_short_circuits (d : SimpleDb.Dir)
    (k : List Nat) (pre post : List SimpleDb.NamedFile)
    (bad : SimpleDb.NamedFile)
    (hsplit : SimpleDb.sortDesc d.dbFiles = pre ++ bad :: post)
    (hpre : ∀ f ∈ pre, ∃ bytes m,
        SimpleDb.lookupFile d.idxFiles f.1 = some bytes ∧
        SimpleDb.decodeIdxFile bytes = some m ∧
        SimpleDb.SSTableReader.get ⟨m, f.2⟩ k = none)
    (hbad : ∃ bytes, SimpleDb.lookupFile d.idxFiles bad.1 = some bytes ∧
        SimpleDb.decodeIdxFile bytes = none) :
    (SimpleDb.SSTableQuerier.query d k).1 = none := by
  rw [SimpleDb.SSTableQuerier.query, hsplit]
  clear hsplit
  induction pre with
  | nil =>
    obtain ⟨bytes, hb1, hb2⟩ := hbad
    simp [SimpleDb.queryGo, hb1, hb2]
  | cons f fs ih =>
    obtain ⟨bytes, m, h1, h2, h3⟩ := hpre f (by simp)
    rw [List.cons_append, SimpleDb.queryGo]
    simp only [h1, h2, h3]
    exact ih (fun g hg => hpre g (List.mem_cons_of_mem f hg))

/-- Witness for the amended C7: in `raceDir3` the newest file opens and
misses, the second file's index is corrupt, and the query returns
not-present. -/
theorem C7_querier_open_error_short_circuits_witness :
    (SimpleDb.SSTableQuerier.query SimpleDb.raceDir3 [7]).1 = none :=
  C7_querier_open_error_short_circuits SimpleDb.raceDir3 [7]
    [(30, (SimpleDb.Entry.mk [5] (some [1]) 9).write_to)]
    [(10, (SimpleDb.Entry.mk [7] (some [9]) 5).write_to)]
    (20, [0, 0])
    (by decide)
    (fun f hf => by
      have hf' : f = (30, (SimpleDb.Entry.mk [5] (some [1]) 9).write_to) := by
        simpa using hf
      subst hf'
      exact ⟨SimpleDb.encodeMap [([5], 0)], [([5], 0)], by decide, by decide,
        by decide⟩)
    ⟨[1, 2, 3], by decide, by decide⟩

namespace SimpleDb

/-! ## Helper theorems for the query path -/

theorem mem_insertDesc {x y : NamedFile} {l : List NamedFile}
    (h : y ∈ insertDesc x l) : y = x ∨ y ∈ l := by
  induction l with
  | nil =>
    simp only [insertDesc, List.mem_singleton] at h
    exact Or.inl h
  | cons z zs ih =>
    rw [insertDesc] at h
    by_cases hlt : x.1 < z.1
    · rw [if_pos hlt] at h
      rcases List.mem_cons.mp h with h1 | h1
      · exact Or.inr (h1 ▸ List.mem_cons_self _ _)
      · rcases ih h1 with h2 | h2
        exacts [Or.inl h2, Or.inr (List.mem_cons_of_mem _ h2)]
    · rw [if_neg hlt] at h
      rcases List.mem_cons.mp h with h1 | h1
      exacts [Or.inl h1, Or.inr h1]

theorem mem_sortDesc {y : NamedFile} {l : List NamedFile}
    (h : y ∈ sortDesc l) : y ∈ l := by
  induction l with
  | nil => simp [sortDesc] at h
  | cons z zs ih =>
    have h' : y ∈ insertDesc z (sortDesc zs) := h
    rcases mem_insertDesc h' with h1 | h1
    · exact h1 ▸ List.mem_cons_self _ _
    · exact List.mem_cons_of_mem _ (ih h1)

/-- The querier only ever adds empty index files (created by the index
builder for data files whose index is missing). -/
theorem queryGo_idxFiles (dbs idxs : List NamedFile) (k : List Nat) :
    ∃ created, (queryGo dbs idxs k).2 = idxs ++ created ∧
      ∀ f ∈ created, f.2 = ([] : List Nat) := by
  induction dbs generalizing idxs with
  | nil => exact ⟨[], by simp [queryGo], by simp⟩
  | cons f rest ih =>
    rw [queryGo]
    cases hl : lookupFile idxs f.1 with
    | none =>
      dsimp only
      obtain ⟨created, h1, h2⟩ := ih (idxs ++ [(f.1, [])])
      refine ⟨(f.1, []) :: created, ?_, ?_⟩
      · rw [h1]
        simp
      · intro g hg
        rcases List.mem_cons.mp hg with h3 | h3
        · rw [h3]
        · exact h2 g h3
    | some bytes =>
      dsimp only
      cases hd : decodeIdxFile bytes with
      | none => exact ⟨[], by simp, by simp⟩
      | some idx =>
        dsimp only
        cases hg : SSTableReader.get ⟨idx, f.2⟩ k with
        | some e => exact ⟨[], by simp, by simp⟩
        | none =>
          dsimp only
          exact ih idxs

/-- When every data file's index file is present, the querier creates
nothing. -/
theorem queryGo_idxFiles_all_present (dbs idxs : List NamedFile)
    (k : List Nat) (h : ∀ f ∈ dbs, (lookupFile idxs f.1).isSome) :
    (queryGo dbs idxs k).2 = idxs := by
  induction dbs with
  | nil => rfl
  | cons f rest ih =>
    obtain ⟨b, hb⟩ := Option.isSome_iff_exists.mp (h f (List.mem_cons_self _ _))
    rw [queryGo, hb]
    dsimp only
    cases hd : decodeIdxFile b with
    | none => rfl
    | some idx =>
      dsimp only
      cases hg : SSTableReader.get ⟨idx, f.2⟩ k with
      | some e => rfl
      | none =>
        dsimp only
        exact ih (fun g hg' => h g (List.mem_cons_of_mem _ hg'))

/-- The state returned by `Database::get`: unchanged on a MemTable hit,
otherwise only the directory's index file list is replaced by the one
the querier returns. -/
theorem Database.get_snd (db : Database) (k : List Nat) :
    (db.get k).2 =
      match db.mem_table.get k with
      | some _ => db
      | none =>
        { db with dir :=
            { db.dir with idxFiles := (SSTableQuerier.query db.dir k).2 } } := by
  rw [Database.get]
  cases hm : db.mem_table.get k with
  | some e => rfl
  | none =>
    dsimp only
    cases hq : (SSTableQuerier.query db.dir k).1 with
    | none => rfl
    | some e => rfl

end SimpleDb

/-- C9 (amended): `Database::get` leaves the MemTable, the active WAL
segment, the data files and the threshold unchanged, and leaves every
existing index file in place unchanged; the one mutation the read path
can perform is creating an empty index file for a data file that
lacked one (`SSTableIndexBuilder` opens with `create(true)`), and when
every data file's index file is present (as holds for every SSTable
the engine itself creates), the whole state is exactly unchanged. -/
theorem C9_get_mutates_nothing (db : SimpleDb.Database) (k : List Nat) :
    ((db.get k).2.mem_table = db.mem_table ∧
      (db.get k).2.walBytes = db.walBytes ∧
      (db.get k).2.dir.dbFiles = db.dir.dbFiles ∧
      (db.get k).2.max_mem_table_size = db.max_mem_table_size ∧
      ∃ created, (db.get k).2.dir.idxFiles = db.dir.idxFiles ++ created ∧
        ∀ f ∈ created, f.2 = ([] : List Nat)) ∧
    ((∀ f ∈ db.dir.dbFiles,
        (SimpleDb.lookupFile db.dir.idxFiles f.1).isSome) →
      (db.get k).2 = db) := by
  rw [SimpleDb.Database.get_snd]
  cases hm : db.mem_table.get k with
  | some e =>
    exact ⟨⟨rfl, rfl, rfl, rfl, [], by simp, by simp⟩, fun _ => rfl⟩
  | none =>
    obtain ⟨created, h1, h2⟩ := SimpleDb.queryGo_idxFiles
      (SimpleDb.sortDesc db.dir.dbFiles) db.dir.idxFiles k
    refine ⟨⟨rfl, rfl, rfl, rfl, created, h1, h2⟩, ?_⟩
    intro hall
    have h3 : (SimpleDb.SSTableQuerier.query db.dir k).2 = db.dir.idxFiles :=
      SimpleDb.queryGo_idxFiles_all_present _ _ _
        (fun f hf => hall f (SimpleDb.mem_sortDesc hf))
    rw [h3]

/-- Witness for C9 on a database with one SSTable whose index file is
present. -/
theorem C9_get_mutates_nothing_witness :
    (∀ f ∈ SimpleDb.oneSstDb.dir.dbFiles,
        (SimpleDb.lookupFile SimpleDb.oneSstDb.dir.idxFiles f.1).isSome) ∧
      (SimpleDb.oneSstDb.get [5]).2 = SimpleDb.oneSstDb :=
  ⟨by decide, (C9_get_mutates_nothing SimpleDb.oneSstDb [5]).2 (by decide)⟩

namespace SimpleDb

/-! ## Order properties of the byte-string comparison -/

theorem bytesLt_irrefl (l : List Nat) : bytesLt l l = false := by
  induction l with
  | nil => rfl
  | cons a t ih => simp [bytesLt, ih]

theorem bytesLt_trans {a b c : List Nat} (h1 : bytesLt a b = true)
    (h2 : bytesLt b c = true) : bytesLt a c = true := by
  induction a generalizing b c with
  | nil =>
    cases b with
    | nil => simp [bytesLt] at h1
    | cons y ys =>
      cases c with
      | nil => simp [bytesLt] at h2
      | cons z zs => rfl
  | cons x xs ih =>
    cases b with
    | nil => simp [bytesLt] at h1
    | cons y ys =>
      cases c with
      | nil => simp [bytesLt] at h2
      | cons z zs =>
        rw [bytesLt] at h1 h2 ⊢
        by_cases hxy : x < y
        · by_cases hyz : y < z
          · rw [if_pos (lt_trans hxy hyz)]
          · rw [if_neg hyz] at h2
            by_cases hzy : z < y
            · rw [if_pos hzy] at h2
              exact absurd h2 (by simp)
            · have hyz' : y = z := by omega
              rw [if_pos (hyz' ▸ hxy)]
        · rw [if_neg hxy] at h1
          by_cases hyx : y < x
          · rw [if_pos hyx] at h1
            exact absurd h1 (by simp)
          · have hxy' : x = y := by omega
            rw [if_neg hyx] at h1
            subst hxy'
            by_cases hxz : x < z
            · rw [if_pos hxz]
            · rw [if_neg hxz] at h2 ⊢
              by_cases hzx : z < x
              · rw [if_pos hzx] at h2
                exact absurd h2 (by simp)
              · rw [if_neg hzx] at h2 ⊢
                exact ih h1 h2

theorem bytesLt_connex {a b : List Nat} (hne : a ≠ b)
    (hnlt : bytesLt a b = false) : bytesLt b a = true := by
  induction a generalizing b with
  | nil =>
    cases b with
    | nil => exact absurd rfl hne
    | cons y ys => simp [bytesLt] at hnlt
  | cons x xs ih =>
    cases b with
    | nil => rfl
    | cons y ys =>
      rw [bytesLt] at hnlt ⊢
      by_cases hxy : x < y
      · rw [if_pos hxy] at hnlt
        exact absurd hnlt (by simp)
      · rw [if_neg hxy] at hnlt
        by_cases hyx : y < x
        · rw [if_pos hyx]
        · have hxy' : x = y := by omega
          subst hxy'
          rw [if_neg hyx] at hnlt
          rw [if_neg (lt_irrefl x), if_neg (lt_irrefl x)]
          have hne' : xs ≠ ys := fun h => hne (by rw [h])
          exact ih hne' hnlt

/-! ## Structural lemmas for the index map -/

theorem mem_idxInsert {m : IdxMap} {k : List Nat} {o : Nat}
    {q : List Nat × Nat} (h : q ∈ idxInsert m k o) : q = (k, o) ∨ q ∈ m := by
  induction m with
  | nil => simpa [idxInsert] using h
  | cons p t ih =>
    rw [idxInsert] at h
    by_cases heq : (p.1 == k)
    · rw [if_pos heq] at h
      rcases List.mem_cons.mp h with h1 | h1
      exacts [Or.inl h1, Or.inr (List.mem_cons_of_mem _ h1)]
    · rw [if_neg heq] at h
      by_cases hlt : bytesLt p.1 k
      · rw [if_pos hlt] at h
        rcases List.mem_cons.mp h with h1 | h1
        · exact Or.inr (h1 ▸ List.mem_cons_self _ _)
        · rcases ih h1 with h2 | h2
          exacts [Or.inl h2, Or.inr (List.mem_cons_of_mem _ h2)]
      · rw [if_neg hlt] at h
        rcases List.mem_cons.mp h with h1 | h1
        · exact Or.inl h1
        · exact Or.inr h1

theorem sorted_idxInsert {m : IdxMap} (k : List Nat) (o : Nat)
    (h : IdxSorted m) : IdxSorted (idxInsert m k o) := by
  induction m with
  | nil => simp [idxInsert]
  | cons p t ih =>
    obtain ⟨hhead, htail⟩ := List.pairwise_cons.mp h
    rw [idxInsert]
    by_cases heq : (p.1 == k)
    · rw [if_pos heq]
      refine List.pairwise_cons.mpr ⟨?_, htail⟩
      intro q hq
      have := hhead q hq
      rwa [eq_of_beq heq] at this
    · rw [if_neg heq]
      by_cases hlt : bytesLt p.1 k
      · rw [if_pos hlt]
        refine List.pairwise_cons.mpr ⟨?_, ih htail⟩
        intro q hq
        rcases mem_idxInsert hq with h1 | h1
        · rw [h1]
          exact hlt
        · exact hhead q h1
      · rw [if_neg hlt]
        refine List.pairwise_cons.mpr ⟨?_, h⟩
        intro q hq
        have hk : bytesLt k p.1 = true := by
          refine bytesLt_connex (fun hpk => ?_) (by simpa using hlt)
          exact heq (by rw [hpk]; exact beq_self_eq_true k)
        rcases List.mem_cons.mp hq with h1 | h1
        · rw [h1]
          exact hk
        · exact bytesLt_trans hk (hhead q h1)

end SimpleDb

namespace SimpleDb

/-! ## Removal lemmas for the index map -/

theorem mem_idxRemove {m : IdxMap} {k : List Nat} {q : List Nat × Nat}
    (h : q ∈ idxRemove m k) : q ∈ m := by
  induction m with
  | nil => simp [idxRemove] at h
  | cons p t ih =>
    rw [idxRemove] at h
    by_cases heq : (p.1 == k)
    · rw [if_pos heq] at h
      exact List.mem_cons_of_mem _ h
    · rw [if_neg heq] at h
      rcases List.mem_cons.mp h with h1 | h1
      · exact h1 ▸ List.mem_cons_self _ _
      · exact List.mem_cons_of_mem _ (ih h1)

theorem sorted_idxRemove {m : IdxMap} (k : List Nat) (h : IdxSorted m) :
    IdxSorted (idxRemove m k) := by
  induction m with
  | nil => simp [idxRemove]
  | cons p t ih =>
    obtain ⟨hhead, htail⟩ := List.pairwise_cons.mp h
    rw [idxRemove]
    by_cases heq : (p.1 == k)
    · rw [if_pos heq]
      exact htail
    · rw [if_neg heq]
      refine List.pairwise_cons.mpr ⟨?_, ih htail⟩
      intro q hq
      exact hhead q (mem_idxRemove hq)

theorem not_fst_mem_idxRemove {m : IdxMap} {k : List Nat}
    (h : IdxSorted m) : ∀ q ∈ idxRemove m k, q.1 ≠ k := by
  induction m with
  | nil => simp [idxRemove]
  | cons p t ih =>
    obtain ⟨hhead, htail⟩ := List.pairwise_cons.mp h
    intro q hq
    rw [idxRemove] at hq
    by_cases heq : (p.1 == k)
    · rw [if_pos heq] at hq
      intro hqk
      have hbet := hhead q hq
      rw [eq_of_beq heq, hqk] at hbet
      exact absurd hbet (by simp [bytesLt_irrefl])
    · rw [if_neg heq] at hq
      rcases List.mem_cons.mp hq with h1 | h1
      · rw [h1]
        intro hpk
        exact heq (by rw [hpk]; exact beq_self_eq_true k)
      · exact ih htail q h1

theorem forall_ne_of_lookup_none {m : IdxMap} {k : List Nat}
    (h : idxLookup m k = none) : ∀ q ∈ m, q.1 ≠ k := by
  induction m with
  | nil => simp
  | cons p t ih =>
    rw [idxLookup] at h
    by_cases heq : (p.1 == k)
    · rw [if_pos heq] at h
      cases h
    · rw [if_neg heq] at h
      intro q hq
      rcases List.mem_cons.mp hq with h1 | h1
      · rw [h1]
        intro hpk
        exact heq (by rw [hpk]; exact beq_self_eq_true k)
      · exact ih h q h1

theorem lookup_none_of_forall_ne {m : IdxMap} {k : List Nat}
    (h : ∀ q ∈ m, q.1 ≠ k) : idxLookup m k = none := by
  induction m with
  | nil => rfl
  | cons p t ih =>
    rw [idxLookup]
    have hp : p.1 ≠ k := h p (List.mem_cons_self _ _)
    rw [if_neg (by simpa using hp)]
    exact ih (fun q hq => h q (List.mem_cons_of_mem _ hq))

theorem mem_removeKeys {m : IdxMap} {ks : List (List Nat)}
    {q : List Nat × Nat} (h : q ∈ removeKeys m ks) : q ∈ m := by
  induction ks generalizing m with
  | nil => simpa [removeKeys] using h
  | cons k t ih =>
    rw [removeKeys] at h
    by_cases hc : idxContains m k
    · rw [if_pos hc] at h
      exact mem_idxRemove (ih h)
    · rw [if_neg hc] at h
      exact ih h

theorem sorted_removeKeys {m : IdxMap} (ks : List (List Nat))
    (h : IdxSorted m) : IdxSorted (removeKeys m ks) := by
  induction ks generalizing m with
  | nil => exact h
  | cons k t ih =>
    rw [removeKeys]
    by_cases hc : idxContains m k
    · rw [if_pos hc]
      exact ih (sorted_idxRemove k h)
    · rw [if_neg hc]
      exact ih h

/-- After `remove_deleted_keys` processes a map, no entry carries a
removed key. -/
theorem not_fst_mem_removeKeys {m : IdxMap} {ks : List (List Nat)}
    {K : List Nat} (hs : IdxSorted m) (hK : K ∈ ks) :
    ∀ q ∈ removeKeys m ks, q.1 ≠ K := by
  induction ks generalizing m with
  | nil => cases hK
  | cons k t ih =>
    intro q hq
    rw [removeKeys] at hq
    rcases List.mem_cons.mp hK with hK1 | hK1
    · subst hK1
      by_cases hc : idxContains m K
      · rw [if_pos hc] at hq
        exact not_fst_mem_idxRemove hs q (mem_removeKeys hq)
      · rw [if_neg hc] at hq
        have hnone : idxLookup m K = none := by
          by_contra hcon
          exact hc (by simpa [idxContains, Option.isSome_iff_ne_none] using hcon)
        exact forall_ne_of_lookup_none hnone q (mem_removeKeys hq)
    · by_cases hc : idxContains m k
      · rw [if_pos hc] at hq
        exact ih (sorted_idxRemove k hs) hK1 q hq
      · rw [if_neg hc] at hq
        exact ih hs hK1 q hq

end SimpleDb

namespace SimpleDb

/-! ## bincode map codec lemmas -/

theorem readExact_length {n : Nat} {bs l r : List Nat}
    (h : readExact n bs = some (l, r)) : l.length = n := by
  rw [readExact] at h
  by_cases hle : n ≤ bs.length
  · rw [if_pos hle] at h
    cases h
    simp [List.length_take, Nat.min_eq_left hle]
  · rw [if_neg hle] at h
    cases h

theorem fromLEBytes_lt (bs : List Nat) : fromLEBytes bs < 256 ^ bs.length := by
  induction bs with
  | nil => simp [fromLEBytes]
  | cons b t ih =>
    rw [fromLEBytes, List.length_cons, pow_succ, mul_comm (256 ^ t.length) 256]
    have hb : b % 256 < 256 := Nat.mod_lt _ (by omega)
    omega

theorem decodePairs_props {c : Nat} {bs : List Nat} {pairs : IdxMap}
    {rest : List Nat} (h : decodePairs c bs = some (pairs, rest)) :
    pairs.length = c ∧ ∀ p ∈ pairs, p.1.length < 256 ^ 8 ∧ p.2 < 256 ^ 8 := by
  induction c generalizing bs pairs rest with
  | zero =>
    rw [decodePairs] at h
    cases h
    exact ⟨rfl, by simp⟩
  | succ c ih =>
    rw [decodePairs] at h
    cases h1 : readExact 8 bs with
    | none => rw [h1] at h; cases h
    | some pr1 =>
      obtain ⟨klenB, bs1⟩ := pr1
      rw [h1] at h
      dsimp only at h
      cases h2 : readExact (fromLEBytes klenB) bs1 with
      | none => rw [h2] at h; cases h
      | some pr2 =>
        obtain ⟨k, bs2⟩ := pr2
        rw [h2] at h
        dsimp only at h
        cases h3 : readExact 8 bs2 with
        | none => rw [h3] at h; cases h
        | some pr3 =>
          obtain ⟨offB, bs3⟩ := pr3
          rw [h3] at h
          dsimp only at h
          cases h4 : decodePairs c bs3 with
          | none => rw [h4] at h; cases h
          | some pr4 =>
            obtain ⟨t, rest'⟩ := pr4
            rw [h4] at h
            dsimp only at h
            cases h
            obtain ⟨hlen, hmem⟩ := ih h4
            have hk : k.length < 256 ^ 8 := by
              have h8 : klenB.length = 8 := readExact_length h1
              have := fromLEBytes_lt klenB
              rw [h8] at this
              rw [readExact_length h2]
              exact this
            have hoff : fromLEBytes offB < 256 ^ 8 := by
              have h8 : offB.length = 8 := readExact_length h3
              have := fromLEBytes_lt offB
              rwa [h8] at this
            refine ⟨by simp [hlen], ?_⟩
            intro p hp
            rcases List.mem_cons.mp hp with hp1 | hp1
            · rw [hp1]
              exact ⟨hk, hoff⟩
            · exact hmem p hp1

theorem decodePairs_encodePairs (m : IdxMap) (junk : List Nat)
    (h : ∀ p ∈ m, p.1.length < 256 ^ 8 ∧ p.2 < 256 ^ 8) :
    decodePairs m.length (encodePairs m ++ junk) = some (m, junk) := by
  induction m with
  | nil => rfl
  | cons p t ih =>
    obtain ⟨hk, hoff⟩ := h p (List.mem_cons_self _ _)
    have e1 : readExact 8 (toLEBytes p.1.length 8 ++ (p.1 ++
        (toLEBytes p.2 8 ++ (encodePairs t ++ junk)))) =
        some (toLEBytes p.1.length 8,
          p.1 ++ (toLEBytes p.2 8 ++ (encodePairs t ++ junk))) :=
      readExact_append _ (toLEBytes_length _ _)
    have e2 : readExact p.1.length (p.1 ++
        (toLEBytes p.2 8 ++ (encodePairs t ++ junk))) =
        some (p.1, toLEBytes p.2 8 ++ (encodePairs t ++ junk)) :=
      readExact_append _ rfl
    have e3 : readExact 8 (toLEBytes p.2 8 ++ (encodePairs t ++ junk)) =
        some (toLEBytes p.2 8, encodePairs t ++ junk) :=
      readExact_append _ (toLEBytes_length _ _)
    have e4 : decodePairs t.length (encodePairs t ++ junk) = some (t, junk) :=
      ih (fun q hq => h q (List.mem_cons_of_mem _ hq))
    simp [decodePairs, encodePairs, e1, e2, e3, e4,
      fromLEBytes_toLEBytes_of_lt hk, fromLEBytes_toLEBytes_of_lt hoff]

theorem decodeMap_encodeMap (m : IdxMap) (junk : List Nat) (hwf : MapWF m) :
    decodeMap (encodeMap m ++ junk) =
      some (m.foldl (fun acc p => idxInsert acc p.1 p.2) []) := by
  obtain ⟨hlen, hmem⟩ := hwf
  have e1 : readExact 8 (toLEBytes m.length 8 ++ (encodePairs m ++ junk)) =
      some (toLEBytes m.length 8, encodePairs m ++ junk) :=
    readExact_append _ (toLEBytes_length _ _)
  simp [decodeMap, encodeMap, e1, fromLEBytes_toLEBytes_of_lt hlen,
    decodePairs_encodePairs m junk hmem]

theorem writeAt_zero (old b : List Nat) :
    writeAt old 0 b = b ++ old.drop b.length := by
  simp [writeAt]

theorem mem_foldl_insert {pairs acc : IdxMap} {q : List Nat × Nat}
    (h : q ∈ pairs.foldl (fun m p => idxInsert m p.1 p.2) acc) :
    q ∈ acc ∨ q ∈ pairs := by
  induction pairs generalizing acc with
  | nil => exact Or.inl h
  | cons p t ih =>
    rcases ih h with h1 | h1
    · rcases mem_idxInsert h1 with h2 | h2
      · exact Or.inr (h2 ▸ List.mem_cons_self _ _)
      · exact Or.inl h2
    · exact Or.inr (List.mem_cons_of_mem _ h1)

theorem sorted_foldl_insert (pairs : IdxMap) {acc : IdxMap}
    (h : IdxSorted acc) :
    IdxSorted (pairs.foldl (fun m p => idxInsert m p.1 p.2) acc) := by
  induction pairs generalizing acc with
  | nil => exact h
  | cons p t ih => exact ih (sorted_idxInsert _ _ h)

theorem length_idxInsert (m : IdxMap) (k : List Nat) (o : Nat) :
    (idxInsert m k o).length ≤ m.length + 1 := by
  induction m with
  | nil => simp [idxInsert]
  | cons p t ih =>
    rw [idxInsert]
    by_cases heq : (p.1 == k)
    · rw [if_pos heq]
      simp
    · rw [if_neg heq]
      by_cases hlt : bytesLt p.1 k
      · rw [if_pos hlt]
        simp only [List.length_cons]
        omega
      · rw [if_neg hlt]
        simp

theorem length_foldl_insert (pairs : IdxMap) (acc : IdxMap) :
    (pairs.foldl (fun m p => idxInsert m p.1 p.2) acc).length ≤
      acc.length + pairs.length := by
  induction pairs generalizing acc with
  | nil => simp
  | cons p t ih =>
    have h1 := ih (idxInsert acc p.1 p.2)
    have h2 := length_idxInsert acc p.1 p.2
    simp only [List.foldl_cons, List.length_cons]
    omega

theorem length_idxRemove_le (m : IdxMap) (k : List Nat) :
    (idxRemove m k).length ≤ m.length := by
  induction m with
  | nil => simp [idxRemove]
  | cons p t ih =>
    rw [idxRemove]
    by_cases heq : (p.1 == k)
    · rw [if_pos heq]
      simp
    · rw [if_neg heq]
      simp only [List.length_cons]
      omega

theorem length_removeKeys_le (m : IdxMap) (ks : List (List Nat)) :
    (removeKeys m ks).length ≤ m.length := by
  induction ks generalizing m with
  | nil => simp [removeKeys]
  | cons k t ih =>
    rw [removeKeys]
    by_cases hc : idxContains m k
    · rw [if_pos hc]
      exact le_trans (ih _) (length_idxRemove_le m k)
    · rw [if_neg hc]
      exact ih m

/-- Every map produced by `bincode::deserialize` is sorted and
well-formed. -/
theorem decodeMap_sorted_wf {bs : List Nat} {m : IdxMap}
    (h : decodeMap bs = some m) : IdxSorted m ∧ MapWF m := by
  rw [decodeMap] at h
  cases h1 : readExact 8 bs with
  | none => rw [h1] at h; cases h
  | some pr1 =>
    obtain ⟨cntB, bs1⟩ := pr1
    rw [h1] at h
    dsimp only at h
    cases h2 : decodePairs (fromLEBytes cntB) bs1 with
    | none => rw [h2] at h; cases h
    | some pr2 =>
      obtain ⟨pairs, rest⟩ := pr2
      rw [h2] at h
      dsimp only at h
      cases h
      obtain ⟨hplen, hpmem⟩ := decodePairs_props h2
      have hcnt : fromLEBytes cntB < 256 ^ 8 := by
        have h8 : cntB.length = 8 := readExact_length h1
        have := fromLEBytes_lt cntB
        rwa [h8] at this
      refine ⟨sorted_foldl_insert pairs (by simp [IdxSorted]), ?_, ?_⟩
      · have := length_foldl_insert pairs []
        simp only [List.length_nil, Nat.zero_add] at this
        omega
      · intro p hp
        rcases mem_foldl_insert hp with h3 | h3
        · cases h3
        · exact hpmem p h3

/-- `decodeIdxFile` on a decodable non-empty file agrees with
`decodeMap`; on an empty file it is the empty map. -/
theorem decodeIdxFile_sorted_wf {bs : List Nat} {m : IdxMap}
    (h : decodeIdxFile bs = some m) : IdxSorted m ∧ MapWF m := by
  rw [decodeIdxFile] at h
  by_cases he : bs.isEmpty
  · rw [if_pos he] at h
    cases h
    exact ⟨by simp [IdxSorted], by simp [MapWF], by simp⟩
  · rw [if_neg he] at h
    exact decodeMap_sorted_wf h

/-- Reading back an index file persisted (without truncation) over any
prior content yields the map rebuilt from the persisted one. -/
theorem decodeIdxFile_persist (old : List Nat) (m : IdxMap) (hwf : MapWF m) :
    decodeIdxFile (persistIdxFile old m) =
      some (m.foldl (fun acc p => idxInsert acc p.1 p.2) []) := by
  rw [persistIdxFile, writeAt_zero]
  have hcons : encodeMap m ++ old.drop (encodeMap m).length =
      (m.length % 256) :: (toLEBytes (m.length / 256) 7 ++
        (encodePairs m ++ old.drop (encodeMap m).length)) := by
    simp [encodeMap, toLEBytes]
  rw [decodeIdxFile, hcons]
  rw [if_neg (by simp)]
  rw [← hcons]
  exact decodeMap_encodeMap m _ hwf

end SimpleDb

namespace SimpleDb

/-! ## Compaction lemmas -/

theorem scanFile_eq (st : SSTableWriter × List (List Nat))
    (r : SSTableReader) :
    scanFile st r = (r.index.filterMap (fun p => r.read p.2)).foldl scanStep st := by
  rw [scanFile]
  generalize r.index = l
  induction l generalizing st with
  | nil => rfl
  | cons a t ih =>
    cases hf : r.read a.2 with
    | none => simp [List.filterMap_cons, List.foldl_cons, hf, ih]
    | some b => simp [List.filterMap_cons, List.foldl_cons, hf, ih]

theorem dels_mono_foldl_scanStep (es : List Entry)
    (st : SSTableWriter × List (List Nat)) :
    ∀ kk ∈ st.2, kk ∈ (es.foldl scanStep st).2 := by
  induction es generalizing st with
  | nil => exact fun kk h => h
  | cons e t ih =>
    intro kk h
    apply ih
    rw [scanStep]
    by_cases hd : e.is_deleted
    · rw [if_pos hd]
      exact List.mem_append_left _ h
    · rw [if_neg hd]
      by_cases hc : st.1.contains_key e.key
      · rw [if_pos hc]
        exact h
      · rw [if_neg hc]
        exact h

theorem tomb_key_mem_foldl_scanStep {es : List Entry} {e : Entry}
    (he : e ∈ es) (hd : e.is_deleted = true)
    (st : SSTableWriter × List (List Nat)) :
    e.key ∈ (es.foldl scanStep st).2 := by
  induction es generalizing st with
  | nil => cases he
  | cons a t ih =>
    rcases List.mem_cons.mp he with h1 | h1
    · subst h1
      rw [List.foldl_cons]
      apply dels_mono_foldl_scanStep
      rw [scanStep, if_pos hd]
      exact List.mem_append_right _ (List.mem_singleton_self _)
    · exact ih h1 _

/-- A successful compaction scan collects every tombstone key it
processes on the deleted-keys list. -/
theorem compactScan_dels {d : Dir} {files : List NamedFile}
    {st st' : SSTableWriter × List (List Nat)}
    (h : compactScan d files st = some st') :
    (∀ kk ∈ st.2, kk ∈ st'.2) ∧
      ∀ e ∈ (files.map (fileEntries d)).flatten, e.is_deleted = true →
        e.key ∈ st'.2 := by
  induction files generalizing st with
  | nil =>
    rw [compactScan] at h
    cases h
    exact ⟨fun kk hk => hk, by simp⟩
  | cons f fs ih =>
    rw [compactScan] at h
    cases ho : openReader d f with
    | none => rw [ho] at h; cases h
    | some r =>
      rw [ho] at h
      dsimp only at h
      obtain ⟨hmono, htombs⟩ := ih h
      have hfe : fileEntries d f = r.index.filterMap (fun p => r.read p.2) := by
        rw [fileEntries, ho]
      have hscan : scanFile st r = (fileEntries d f).foldl scanStep st := by
        rw [hfe, scanFile_eq]
      constructor
      · intro kk hk
        apply hmono
        rw [hscan]
        exact dels_mono_foldl_scanStep _ _ kk hk
      · intro e he hd
        rw [List.map_cons, List.flatten_cons] at he
        rcases List.mem_append.mp he with h1 | h1
        · apply hmono
          rw [hscan]
          exact tomb_key_mem_foldl_scanStep h1 hd st
        · exact htombs e h1 hd

/-- After `remove_deleted_keys`, every persisted index file
deserializes to a map without any of the deleted keys. -/
theorem removeDeletedKeys_no_key {idxFiles out : List NamedFile}
    {dels : List (List Nat)} {K : List Nat}
    (h : removeDeletedKeys idxFiles dels = some out) (hK : K ∈ dels) :
    ∀ f ∈ out, ∃ m, decodeIdxFile f.2 = some m ∧ idxLookup m K = none := by
  induction idxFiles generalizing out with
  | nil =>
    rw [removeDeletedKeys] at h
    cases h
    simp
  | cons f fs ih =>
    rw [removeDeletedKeys] at h
    cases hd : decodeIdxFile f.2 with
    | none => rw [hd] at h; cases h
    | some m =>
      rw [hd] at h
      dsimp only at h
      cases hrest : removeDeletedKeys fs dels with
      | none => rw [hrest] at h; cases h
      | some rest =>
        rw [hrest] at h
        simp only [Option.map_some'] at h
        cases h
        intro g hg
        rcases List.mem_cons.mp hg with h1 | h1
        · obtain ⟨hs, hwf⟩ := decodeIdxFile_sorted_wf hd
          have hwf' : MapWF (removeKeys m dels) :=
            ⟨lt_of_le_of_lt (length_removeKeys_le m dels) hwf.1,
              fun q hq => hwf.2 q (mem_removeKeys hq)⟩
          refine ⟨(removeKeys m dels).foldl
            (fun acc p => idxInsert acc p.1 p.2) [], ?_, ?_⟩
          · rw [h1]
            exact decodeIdxFile_persist f.2 _ hwf'
          · apply lookup_none_of_forall_ne
            intro q hq
            rcases mem_foldl_insert hq with h2 | h2
            · cases h2
            · exact not_fst_mem_removeKeys hs hK q h2
        · exact ih hrest g h1

end SimpleDb

/-- C4: for every compaction run whose selected input files contain a
tombstone as the newest record for some key K, after
`Compaction::compact` returns success, K is absent from the persisted
index map of the new output SSTable's `.idx` file and of every other
remaining `.idx` file in the directory (`remove_deleted_keys` patches
every `.idx` file, the freshly flushed output's included). -/
theorem C4_tombstone_absent_after_compaction (d d' : SimpleDb.Dir)
    (size ts : Nat) (K : List Nat) (et : SimpleDb.Entry)
    (hc : SimpleDb.Compaction.compact d size ts = some d')
    (hnew : ((SimpleDb.scannedEntries d size).filter
        (fun e => e.key == K)).head? = some et)
    (htomb : et.is_deleted = true) :
    ∀ f ∈ d'.idxFiles, ∃ m, SimpleDb.decodeIdxFile f.2 = some m ∧
      SimpleDb.idxLookup m K = none := by
  have hmem : et ∈ SimpleDb.scannedEntries d size ∧ et.key = K := by
    cases hfl : (SimpleDb.scannedEntries d size).filter
        (fun e => e.key == K) with
    | nil => rw [hfl] at hnew; cases hnew
    | cons a t =>
      rw [hfl] at hnew
      cases hnew
      have ha : et ∈ (SimpleDb.scannedEntries d size).filter
          (fun e => e.key == K) := by
        rw [hfl]
        exact List.mem_cons_self _ _
      exact ⟨(List.mem_filter.mp ha).1, eq_of_beq (List.mem_filter.mp ha).2⟩
  rw [SimpleDb.Compaction.compact] at hc
  by_cases hemp : (d.dbFiles.filter (fun f => f.2.length < size)).isEmpty
  · exfalso
    have hscan : SimpleDb.scannedEntries d size = [] := by
      rw [SimpleDb.scannedEntries, List.isEmpty_iff.mp hemp]
      rfl
    rw [hscan] at hmem
    cases hmem.1
  · rw [if_neg hemp] at hc
    cases hw : SimpleDb.SSTableWriter.new
        ((SimpleDb.lookupFile d.dbFiles ts).getD [])
        ((SimpleDb.lookupFile d.idxFiles ts).getD []) with
    | none => rw [hw] at hc; cases hc
    | some w0 =>
      rw [hw] at hc
      dsimp only at hc
      cases hcs : SimpleDb.compactScan d
          (SimpleDb.sortDesc (d.dbFiles.filter (fun f => f.2.length < size)))
          (w0, []) with
      | none => rw [hcs] at hc; cases hc
      | some st =>
        rw [hcs] at hc
        dsimp only at hc
        cases hrm : SimpleDb.removeDeletedKeys
            (SimpleDb.upsertFile d.idxFiles ts st.1.flush.2) st.2 with
        | none => rw [hrm] at hc; cases hc
        | some out =>
          rw [hrm] at hc
          simp only [Option.map_some'] at hc
          cases hc
          have hK : K ∈ st.2 := by
            obtain ⟨_, htombs⟩ := SimpleDb.compactScan_dels hcs
            have := htombs et hmem.1 htomb
            rwa [hmem.2] at this
          intro f hf
          exact SimpleDb.removeDeletedKeys_no_key hrm hK f hf

/-- Witness for C4 on the concrete `tombDir` compaction run. -/
theorem C4_tombstone_absent_after_compaction_witness :
    SimpleDb.Compaction.compact SimpleDb.tombDir 100 30 =
        some SimpleDb.tombDirOut ∧
      ((SimpleDb.scannedEntries SimpleDb.tombDir 100).filter
          (fun e => e.key == [7])).head? =
        some (SimpleDb.Entry.mk [7] none 10) ∧
      ∀ f ∈ SimpleDb.tombDirOut.idxFiles, ∃ m,
        SimpleDb.decodeIdxFile f.2 = some m ∧
          SimpleDb.idxLookup m [7] = none :=
  ⟨by decide, by decide,
    C4_tombstone_absent_after_compaction SimpleDb.tombDir SimpleDb.tombDirOut
      100 30 [7] (SimpleDb.Entry.mk [7] none 10) (by decide) (by decide)
      (by decide)⟩

/-- C9 counterexample: over a directory holding a data file without its
`.idx` sibling, `Database::get` is not mutation-free as the claim
states: it creates a new (empty) index file on disk, so the state after
`get` differs from the state before. -/
theorem C9_get_counterexample :
    (SimpleDb.orphanDb.get [5]).2 ≠ SimpleDb.orphanDb ∧
      (SimpleDb.orphanDb.get [5]).2.dir.idxFiles =
        SimpleDb.orphanDb.dir.idxFiles ++ [(10, [])] := by decide
